import Mathlib

/-!
Verification of the buildpy build engine (revisions `v4` and `vx`) against its
natural-language specification.

The Python sources are shallowly embedded: timestamps (Python floats used only
through order comparisons) are modelled as `Int`; a modification-time probe that
may raise `OSError`/`NotFound` is modelled as an `Option Int` (`none` = the
probe raised); fallible operations return `Except` or `Option`.  Each
definition carries a comment pointing at the Python function it embeds.
-/

namespace Buildpy

/-! ## Staleness decision (`_FileJob._need_update`, vx lines 423-439;
`_FileJob.need_update`, v4 lines 584-601)

Python:
```
try:
    t_ts = min(mtime_of(uri=t, use_hash=False, ...) for t in self.ts_unique)
except (OSError, NotFound):
    for d in self.ds_unique:
        self._time_of_dep_from_cache(d)   # side effect only
    return True
return max((self._time_of_dep_from_cache(d) for d in self.ds_unique),
           default=-float('inf')) > t_ts
```
`raw t` is the raw mtime probe `mtime_of(t, use_hash=False)` (`none` = the
probe raised `OSError`/`NotFound`); `oracle d` is `_time_of_dep_from_cache(d)`
(the per-run memoised oracle value).  `tsU`, `dsU` list the elements of
`ts_unique` / `ds_unique` (min/max do not depend on order or multiplicity).
`min()` over an empty sequence raises `ValueError`, which is not caught by the
`except` clause: `need_update` returns `none` in that case.  The dep maximum
with `default=-inf` is computed in `WithBot Int` with `⊥` as the default. -/

/-- `min(raw t for t in ts)` with exception propagation: `none` as soon as one
probe raises; `none` for the empty sequence (`ValueError`). -/
def minRaw (raw : String → Option Int) : List String → Option Int
  | [] => none
  | t :: ts =>
    match raw t, ts with
    | none, _ => none
    | some a, [] => some a
    | some a, t' :: ts' =>
      match minRaw raw (t' :: ts') with
      | none => none
      | some b => some (min a b)

/-- `max((oracle d for d in ds), default=-float('inf'))`. -/
def depsMax (oracle : String → Int) (ds : List String) : WithBot Int :=
  (ds.map (fun d => (oracle d : WithBot Int))).foldr max ⊥

/-- `_FileJob._need_update` (vx) / `_FileJob.need_update` (v4, non-dry-run
path).  `none` models the uncaught `ValueError` from `min()` on an empty
target set. -/
def need_update (raw : String → Option Int) (oracle : String → Int)
    (tsU dsU : List String) : Option Bool :=
  match tsU with
  | [] => none
  | t :: ts =>
    match minRaw raw (t :: ts) with
    | none => some true
    | some t_ts => some (decide (depsMax oracle dsU > (t_ts : WithBot Int)))

theorem minRaw_eq_none_iff (raw : String → Option Int) :
    ∀ ts : List String, ts ≠ [] → (minRaw raw ts = none ↔ ∃ t ∈ ts, raw t = none) := by
  intro ts
  induction ts with
  | nil => intro h; exact absurd rfl h
  | cons t ts ih =>
    intro _
    constructor
    · intro h
      rcases hr : raw t with _ | a
      · exact ⟨t, by simp, hr⟩
      · rcases ts with _ | ⟨t', ts'⟩
        · simp [minRaw, hr] at h
        · rcases hm : minRaw raw (t' :: ts') with _ | b
          · obtain ⟨u, hu, hnone⟩ := (ih (by simp)).mp hm
            exact ⟨u, List.mem_cons_of_mem _ hu, hnone⟩
          · simp [minRaw, hr, hm] at h
    · rintro ⟨u, hu, hnone⟩
      rcases List.mem_cons.mp hu with h | h
      · subst h; rcases ts with _ | ⟨t', ts'⟩ <;> simp [minRaw, hnone]
      · rcases ts with _ | ⟨t', ts'⟩
        · simp at h
        · have : minRaw raw (t' :: ts') = none :=
            (ih (by simp)).mpr ⟨u, h, hnone⟩
          rcases hr : raw t with _ | a <;> simp [minRaw, hr, this]

theorem minRaw_isSome_spec (raw : String → Option Int) :
    ∀ (ts : List String) (m : Int), minRaw raw ts = some m →
      (∃ t ∈ ts, raw t = some m) ∧ ∀ t ∈ ts, ∀ a, raw t = some a → m ≤ a := by
  intro ts
  induction ts with
  | nil => intro m h; simp [minRaw] at h
  | cons t ts ih =>
    intro m h
    rcases hr : raw t with _ | a
    · rcases ts with _ | ⟨t', ts'⟩ <;> simp [minRaw, hr] at h
    · rcases ts with _ | ⟨t', ts'⟩
      · simp [minRaw, hr] at h
        subst h
        refine ⟨⟨t, by simp, hr⟩, ?_⟩
        intro u hu b hb
        simp only [List.mem_singleton] at hu
        subst hu
        rw [hr] at hb
        injection hb with hb
        omega
      · rcases hm : minRaw raw (t' :: ts') with _ | b
        · simp [minRaw, hr, hm] at h
        · simp only [minRaw, hr, hm, Option.some.injEq] at h
          obtain ⟨⟨u, hu, hru⟩, hlb⟩ := ih b hm
          constructor
          · rcases le_total a b with hab | hab
            · refine ⟨t, by simp, ?_⟩
              rw [hr]
              congr 1
              omega
            · refine ⟨u, List.mem_cons_of_mem _ hu, ?_⟩
              rw [hru]
              congr 1
              omega
          · intro v hv c hc
            rcases List.mem_cons.mp hv with h' | h'
            · subst h'
              rw [hr] at hc
              injection hc with hc
              subst hc
              have := min_le_left a b
              omega
            · have := hlb v h' c hc
              have := min_le_right a b
              omega

theorem depsMax_spec (oracle : String → Int) (ds : List String) :
    (∀ d ∈ ds, (oracle d : WithBot Int) ≤ depsMax oracle ds) ∧
      (ds = [] → depsMax oracle ds = ⊥) ∧
      (ds ≠ [] → ∃ d ∈ ds, depsMax oracle ds = (oracle d : WithBot Int)) := by
  induction ds with
  | nil => simp [depsMax]
  | cons d ds ih =>
    obtain ⟨ub, _, att⟩ := ih
    refine ⟨?_, by simp, ?_⟩
    · intro d' hd'
      have hstep : depsMax oracle (d :: ds) =
          max (oracle d : WithBot Int) (depsMax oracle ds) := rfl
      rcases List.mem_cons.mp hd' with h | h
      · subst h
        rw [hstep]
        exact le_max_left _ _
      · have := ub d' h
        rw [hstep]
        exact le_max_of_le_right this
    · intro _
      rcases ds with _ | ⟨d', ds'⟩
      · exact ⟨d, by simp, by simp [depsMax]⟩
      · obtain ⟨u, hu, hmax⟩ := att (by simp)
        have hstep : depsMax oracle (d :: d' :: ds') =
            max (oracle d : WithBot Int) (depsMax oracle (d' :: ds')) := rfl
        rcases le_total ((oracle d : WithBot Int)) (depsMax oracle (d' :: ds')) with h | h
        · refine ⟨u, List.mem_cons_of_mem _ hu, ?_⟩
          rw [hstep, max_eq_right h]
          exact hmax
        · refine ⟨d, by simp, ?_⟩
          rw [hstep, max_eq_left h]

/-- C1: for a file job with at least one target, `need_update` returns a value
(no uncaught error), and it returns `true` iff some target's raw mtime probe
raises, or the maximum of the oracle's dep times (default `⊥` = `-inf`)
strictly exceeds the minimum of the raw target times.  In particular equality
of the two sides yields `false`, and a job with no deps whose targets all
exist yields `false`. -/
theorem need_update_spec (raw : String → Option Int) (oracle : String → Int)
    (tsU dsU : List String) (hts : tsU ≠ []) :
    (need_update raw oracle tsU dsU).isSome ∧
    (need_update raw oracle tsU dsU = some true ↔
      (∃ t ∈ tsU, raw t = none) ∨
        ∃ m, minRaw raw tsU = some m ∧ depsMax oracle dsU > (m : WithBot Int)) ∧
    (∀ m, minRaw raw tsU = some m → depsMax oracle dsU = (m : WithBot Int) →
      need_update raw oracle tsU dsU = some false) ∧
    (dsU = [] → (∀ t ∈ tsU, (raw t).isSome) →
      need_update raw oracle tsU dsU = some false) := by
  rcases tsU with _ | ⟨t, ts⟩
  · exact absurd rfl hts
  have hne : need_update raw oracle (t :: ts) dsU =
      (match minRaw raw (t :: ts) with
       | none => some true
       | some t_ts => some (decide (depsMax oracle dsU > (t_ts : WithBot Int)))) := rfl
  refine ⟨?_, ?_, ?_, ?_⟩
  · rw [hne]
    rcases hm : minRaw raw (t :: ts) with _ | m <;> simp
  · constructor
    · intro h
      rw [hne] at h
      rcases hm : minRaw raw (t :: ts) with _ | m
      · exact Or.inl ((minRaw_eq_none_iff raw _ (by simp)).mp hm)
      · rw [hm] at h
        simp only [Option.some.injEq, decide_eq_true_eq] at h
        exact Or.inr ⟨m, rfl, h⟩
    · intro h
      rw [hne]
      rcases h with h | ⟨m, hm, hgt⟩
      · rw [(minRaw_eq_none_iff raw _ (by simp)).mpr h]
      · rw [hm]
        simp [hgt]
  · intro m hm heq
    rw [hne, hm]
    simp [heq]
  · intro hds hsome
    rw [hne]
    rcases hm : minRaw raw (t :: ts) with _ | m
    · obtain ⟨u, hu, hnone⟩ := (minRaw_eq_none_iff raw _ (by simp)).mp hm
      have := hsome u hu
      rw [hnone] at this
      simp at this
    · subst hds
      simp only [depsMax, List.map_nil, List.foldr_nil, Option.some.injEq]
      simp

/-- Witness for `need_update_spec` at a concrete input: one target with raw
mtime 5, one dep with oracle time 5 — equal times give `need_update = false`
(the strict `>`). -/
theorem need_update_spec_witness :
    need_update (fun _ => some 5) (fun _ => 5) ["t"] ["d"] = some false := by
  have h := need_update_spec (fun _ => some 5) (fun _ => 5) ["t"] ["d"]
    (by simp)
  exact h.2.2.1 5 (by simp [minRaw]) (by simp [depsMax])

/-! ## Job orchestration and success propagation (`task_of_invoke`, vx lines
322-333, and `_ThreadPool._worker`, vx lines 522-547)

Python:
```
def task_of_invoke(this):
    for child in children:
        yield this.wait(child.task)
    if all(child.successed for child in children):
        yield self._enq()           # job goes to the worker pool
    else:
        self.done.set()             # done without enqueuing; successed stays False
```
and in `_worker`, for an enqueued job: if `need_update()` is false the job is
marked `successed = True` without running the action; otherwise the action is
executed and `successed = True` only when it does not raise.

Jobs are indexed by `Nat` in reverse topological order: `children i` lists the
jobs of `i`'s deps, each with a smaller index (the graph is acyclic; an index
assignment with this property exists for every finite DAG).  `ok i` abstracts
the worker's verdict for a job that *is* enqueued: `true` iff the job is
up-to-date or its action ran without raising.  `successed` computes the final
`successed` flag of a job once its one-shot task has terminated, and
`enqueued` whether `task_of_invoke` took the `self._enq()` branch. -/

/-- Terminal `successed` flag of job `i`: the task enqueues `i` only when all
children successed (`task_of_invoke`); the worker then sets `successed := ok i`.
Children outside `List.range i` do not occur when deps have smaller indices. -/
def successed (c : Nat → List Nat) (ok : Nat → Bool) : Nat → Bool
  | i =>
    (((List.range i).attach.all fun jh =>
        !decide (jh.1 ∈ c i) || successed c ok jh.1) && ok i)
  termination_by i => i
  decreasing_by exact List.mem_range.mp jh.2

/-- Whether `task_of_invoke` enqueues job `i` into the worker pool:
`all(child.successed for child in children)`. -/
def enqueued (c : Nat → List Nat) (ok : Nat → Bool) (i : Nat) : Bool :=
  (List.range i).attach.all fun jh =>
    !decide (jh.1 ∈ c i) || successed c ok jh.1

theorem successed_eq (c : Nat → List Nat) (ok : Nat → Bool) (i : Nat) :
    successed c ok i = (enqueued c ok i && ok i) := by
  rw [successed]
  rfl

/-- `Dep c i j`: job `j` is (the job of) one of `i`'s deps. -/
def Dep (c : Nat → List Nat) (i j : Nat) : Prop := j ∈ c i

theorem enqueued_eq_false_of_dep_failed (c : Nat → List Nat) (ok : Nat → Bool)
    (hdec : ∀ i, ∀ j ∈ c i, j < i) {a m : Nat} (hm : m ∈ c a)
    (hfail : successed c ok m = false) : enqueued c ok a = false := by
  have hlt : m < a := hdec a m hm
  unfold enqueued
  rw [List.all_eq_false]
  refine ⟨⟨m, List.mem_range.mpr hlt⟩, List.mem_attach _ _, ?_⟩
  simp [hm, hfail]

/-- C2: if any transitive dependency of job `j` terminates with
`successed = false`, then `j` is never enqueued into the worker pool (so its
action never runs; its task just sets `done`), and `j`'s own `successed` stays
`false` — hence the non-success propagates transitively to every dependent. -/
theorem failed_dep_never_enqueued (c : Nat → List Nat) (ok : Nat → Bool)
    (hdec : ∀ i, ∀ j ∈ c i, j < i) (j d : Nat)
    (hdep : Relation.TransGen (Dep c) j d)
    (hfail : successed c ok d = false) :
    enqueued c ok j = false ∧ successed c ok j = false := by
  induction hdep using Relation.TransGen.head_induction_on with
  | base h =>
    have henq := enqueued_eq_false_of_dep_failed c ok hdec h hfail
    exact ⟨henq, by rw [successed_eq, henq, Bool.false_and]⟩
  | ih h _ ihm =>
    have hm : successed c ok _ = false := ihm.2
    have henq := enqueued_eq_false_of_dep_failed c ok hdec h hm
    exact ⟨henq, by rw [successed_eq, henq, Bool.false_and]⟩

/-- Witness for `failed_dep_never_enqueued`: job 2 depends on job 1, job 1 on
job 0, job 0's action fails; job 2 (transitively affected) is not enqueued. -/
theorem failed_dep_never_enqueued_witness :
    enqueued (fun i => if i = 0 then [] else [i - 1]) (fun i => decide (i ≠ 0)) 2
        = false ∧
      successed (fun i => if i = 0 then [] else [i - 1]) (fun i => decide (i ≠ 0)) 2
        = false := by
  refine failed_dep_never_enqueued _ _ ?_ 2 0 ?_ ?_
  · intro i j hj
    rcases i with _ | i
    · simp at hj
    · simp only [Nat.succ_ne_zero, if_false, List.mem_singleton] at hj
      omega
  · refine @Relation.TransGen.head _ _ 2 1 0 ?_ (Relation.TransGen.single ?_)
    · show (1 : Nat) ∈ if (2 : Nat) = 0 then [] else [2 - 1]
      simp
    · show (0 : Nat) ∈ if (1 : Nat) = 0 then [] else [1 - 1]
      simp
  · rw [successed_eq]
    simp

/-! ## Hash-time cache oracle (`_min_of_t_uri_and_t_cache`, v4 lines
1151-1182, and `LocalFile.mtime_of`, v4 lines 353-374)

Python:
```
try: cache_path_stat = os.stat(cache_path)
except OSError:
    h_path = force_hash(); _dump_hash_time_cache(cache_path, t_uri, h_path); return t_uri
try: t_cache, h_cache = _load_hash_time_cache(cache_path)
except (OSError, KeyError):
    h_path = force_hash(); _dump_hash_time_cache(cache_path, t_uri, h_path); return t_uri
if cache_path_stat.st_mtime > t_uri:
    return t_cache
else:
    h_path = force_hash()
    if h_path == h_cache:
        t_now = time.time(); os.utime(cache_path, (t_now, t_now)); return t_cache
    else:
        _dump_hash_time_cache(cache_path, t_uri, h_path); return t_uri
```
The cache file is modelled by its own mtime (`statMtime`, from `os.stat`) and
its JSON record (`content`; `none` = unreadable/corrupt, i.e. `_load…` raised).
`hashNow` is the value `force_hash()` would produce (only consulted in the
branches where the code calls it), `now` is `time.time()` (also the mtime a
freshly dumped cache file gets).  The function returns the reported time and
the cache file state after the call. -/

structure CacheFile where
  statMtime : Int
  content : Option (Int × String)
  deriving DecidableEq, Repr

/-- `_min_of_t_uri_and_t_cache` (v4).  `cache = none` means `os.stat` raised
(no cache file). -/
def min_of_t_uri_and_t_cache (t_uri : Int) (hashNow : String) (now : Int)
    (cache : Option CacheFile) : Int × CacheFile :=
  match cache with
  | none => (t_uri, ⟨now, some (t_uri, hashNow)⟩)
  | some cf =>
    match cf.content with
    | none => (t_uri, ⟨now, some (t_uri, hashNow)⟩)
    | some (t_cache, h_cache) =>
      if cf.statMtime > t_uri then (t_cache, cf)
      else if hashNow = h_cache then (t_cache, ⟨now, cf.content⟩)
      else (t_uri, ⟨now, some (t_uri, hashNow)⟩)

/-- `LocalFile.mtime_of` (v4).  `rawMtime` is `os.path.getmtime` (`none` = it
raised); with `use_hash=false` the raw time is returned and the cache is left
untouched. -/
def mtime_of_local (rawMtime : Option Int) (use_hash : Bool) (hashNow : String)
    (now : Int) (cache : Option CacheFile) : Option (Int × Option CacheFile) :=
  match rawMtime with
  | none => none
  | some t_uri =>
    if use_hash then
      let r := min_of_t_uri_and_t_cache t_uri hashNow now cache
      some (r.1, some r.2)
    else some (t_uri, cache)

/-- C4: when the cache file exists with a readable record `{t_cache, h_cache}`
and its own mtime is not newer than `t_uri`: if the fresh digest matches the
cached one, the oracle touches the cache file (mtime := now) and returns
`t_cache`; otherwise it writes `{t: t_uri, h: hashNow}` and returns `t_uri`.
Consequently, after a match, a later call that sees an mtime-only change
(`t_uri' < now`, content hash unchanged) still returns `t_cache`, so no
rebuild is triggered by an mtime-only modification of the dep. -/
theorem cache_hit_touches_and_returns_cached (t_uri : Int) (hashNow : String)
    (now : Int) (cf : CacheFile) (t_cache : Int) (h_cache : String)
    (hread : cf.content = some (t_cache, h_cache))
    (hmt : ¬ cf.statMtime > t_uri) :
    (hashNow = h_cache →
      min_of_t_uri_and_t_cache t_uri hashNow now (some cf)
        = (t_cache, ⟨now, cf.content⟩)) ∧
    (hashNow ≠ h_cache →
      min_of_t_uri_and_t_cache t_uri hashNow now (some cf)
        = (t_uri, ⟨now, some (t_uri, hashNow)⟩)) ∧
    (hashNow = h_cache → ∀ t_uri' now', t_uri' < now →
      min_of_t_uri_and_t_cache t_uri' hashNow now'
          (some (min_of_t_uri_and_t_cache t_uri hashNow now (some cf)).2)
        = (t_cache, ⟨now, cf.content⟩)) := by
  obtain ⟨sm, cont⟩ := cf
  have hc : cont = some (t_cache, h_cache) := hread
  subst hc
  have hmt' : ¬ sm > t_uri := hmt
  refine ⟨?_, ?_, ?_⟩
  · intro heq
    simp [min_of_t_uri_and_t_cache, hmt', heq]
  · intro hne
    simp [min_of_t_uri_and_t_cache, hmt', hne]
  · intro heq t_uri' now' hlt
    subst heq
    simp [min_of_t_uri_and_t_cache, hmt', hlt]

/-- Witness for `cache_hit_touches_and_returns_cached`: resource time 10,
cache record `{t: 7, h: "h"}` with cache-file mtime 9 ≤ 10; a matching digest
returns the cached 7 and touches the file to `now = 20`. -/
theorem cache_hit_touches_and_returns_cached_witness :
    min_of_t_uri_and_t_cache 10 "h" 20 (some ⟨9, some (7, "h")⟩)
      = (7, ⟨20, some (7, "h")⟩) :=
  (cache_hit_touches_and_returns_cached 10 "h" 20 ⟨9, some (7, "h")⟩ 7 "h"
      rfl (by decide)).1 rfl

/-- C5 counterexample: the claim "the returned value never exceeds the
resource's raw modification time `t_uri`" fails.  With `use_hash = true`,
`t_uri = 3` and a cache file whose mtime 5 is newer than `t_uri` holding the
record `{t: 10, h: "h"}` (written during an earlier run when the resource was
newer), `LocalFile.mtime_of` returns the cached 10 > 3. -/
theorem mtime_of_local_can_exceed_t_uri :
    (mtime_of_local (some 3) true "h" 100 (some ⟨5, some (10, "h")⟩)).map
        Prod.fst = some 10
      ∧ ¬ (10 : Int) ≤ 3 := by
  constructor
  · rfl
  · omega

theorem min_of_t_uri_and_t_cache_fst_cases (t_uri : Int) (hashNow : String)
    (now : Int) (cache : Option CacheFile) :
    (min_of_t_uri_and_t_cache t_uri hashNow now cache).1 = t_uri ∨
      ∃ cf t_cache h_cache, cache = some cf ∧
        cf.content = some (t_cache, h_cache) ∧
        (min_of_t_uri_and_t_cache t_uri hashNow now cache).1 = t_cache := by
  rcases cache with _ | cf
  · exact Or.inl rfl
  · rcases hc : cf.content with _ | ⟨t_cache, h_cache⟩
    · simp [min_of_t_uri_and_t_cache, hc]
    · simp only [min_of_t_uri_and_t_cache, hc]
      by_cases hmt : cf.statMtime > t_uri
      · rw [if_pos hmt]
        exact Or.inr ⟨cf, t_cache, h_cache, rfl, hc, rfl⟩
      · rw [if_neg hmt]
        by_cases hh : hashNow = h_cache
        · rw [if_pos hh]
          exact Or.inr ⟨cf, t_cache, h_cache, rfl, hc, rfl⟩
        · rw [if_neg hh]
          exact Or.inl rfl

/-- C5 (amended): with `use_hash = true` the reported time is either `t_uri`
or the cached timestamp `t_cache`; it never exceeds `t_uri` provided the
cached timestamp does not exceed `t_uri`; and with `use_hash = false` it is
exactly `t_uri`. -/
theorem mtime_of_local_spec (use_hash : Bool)
    (hashNow : String) (now : Int) (cache : Option CacheFile) (t_uri : Int) :
    (∀ v c', mtime_of_local (some t_uri) use_hash hashNow now cache = some (v, c') →
      (v = t_uri ∨ ∃ cf t_cache h_cache, cache = some cf ∧
        cf.content = some (t_cache, h_cache) ∧ v = t_cache)) ∧
    ((∀ cf t_cache h_cache, cache = some cf →
        cf.content = some (t_cache, h_cache) → t_cache ≤ t_uri) →
      ∀ v c', mtime_of_local (some t_uri) use_hash hashNow now cache = some (v, c') →
        v ≤ t_uri) ∧
    (use_hash = false →
      mtime_of_local (some t_uri) use_hash hashNow now cache = some (t_uri, cache)) := by
  have hcases : ∀ v c',
      mtime_of_local (some t_uri) use_hash hashNow now cache = some (v, c') →
      (v = t_uri ∨ ∃ cf t_cache h_cache, cache = some cf ∧
        cf.content = some (t_cache, h_cache) ∧ v = t_cache) := by
    intro v c' h
    rcases use_hash with _ | _
    · simp only [mtime_of_local, Bool.false_eq_true, if_neg, ite_false,
        Option.some.injEq, Prod.mk.injEq] at h
      exact Or.inl h.1.symm
    · simp only [mtime_of_local, ite_true, Option.some.injEq, Prod.mk.injEq] at h
      rcases min_of_t_uri_and_t_cache_fst_cases t_uri hashNow now cache with
        hv | ⟨cf, tc, hc, hcs, hcont, hv⟩
      · exact Or.inl (h.1 ▸ hv)
      · exact Or.inr ⟨cf, tc, hc, hcs, hcont, h.1 ▸ hv⟩
  refine ⟨hcases, ?_, ?_⟩
  · intro hmono v c' h
    rcases hcases v c' h with hv | ⟨cf, tc, hcs, hcf, hcont, hv⟩
    · omega
    · have := hmono cf tc hcs hcf hcont
      omega
  · intro hfalse
    subst hfalse
    simp [mtime_of_local]

/-- Witness for `mtime_of_local_spec`: a cache whose record time 7 does not
exceed `t_uri = 10` yields a reported time ≤ 10. -/
theorem mtime_of_local_spec_witness :
    (10 : Int) ≤ 10 ∧
      mtime_of_local (some 10) false "h" 20 none = some (10, none) :=
  ⟨le_refl _, (mtime_of_local_spec false "h" 20 none 10).2.2 rfl⟩

/-! ## Metadata table (`DSL.meta`, vx lines 163-165 / v4 lines 287-293) and
failure cleanup (`_FileJob.rm_targets`, vx lines 402-411;
`_ThreadPool._worker`, vx lines 532-550)

vx:
```
def meta(self, uri, **kwargs):
    self.metadata[uri] = kwargs          # whole-map replacement
    return uri
```
v4:
```
def meta(self, name, **kwargs):
    _meta = self.data["meta"][name]
    for k, v in kwargs.items():
        if (k in _meta) and (_meta[k] != v):
            raise Err(...)               # conflicting overwrite
        _meta[k] = v
    return name
```
An options map is an association list with unique keys (a Python dict);
values are booleans or strings (`keep`, `credential`). -/

/-- A Python value stored in a metadata options map. -/
inductive PyVal
  | pyBool (b : Bool)
  | pyStr (s : String)
  deriving DecidableEq, Repr

/-- Python truthiness of a metadata value (`meta["keep"]` is used as a
condition). -/
def PyVal.truthy : PyVal → Bool
  | .pyBool b => b
  | .pyStr s => decide (s ≠ "")

abbrev Kwargs := List (String × PyVal)

/-- Python dict lookup on an options map (first matching key). -/
def lookupKw (m : Kwargs) (k : String) : Option PyVal :=
  match m with
  | [] => none
  | (k', v) :: rest => if k' = k then some v else lookupKw rest k

/-- Python dict store `m[k] = v`: replace in place if the key exists,
otherwise append. -/
def setKw (m : Kwargs) (k : String) (v : PyVal) : Kwargs :=
  match m with
  | [] => [(k, v)]
  | (k', v') :: rest =>
    if k' = k then (k, v) :: rest else (k', v') :: setKw rest k v

/-- vx `DSL.meta`: `self.metadata[uri] = kwargs` — the stored options map for
`uri` is replaced wholesale.  `metadata` is a `TDefaultDict`, modelled as a
total function defaulting to `[]`. -/
def metaVx (metadata : String → Kwargs) (uri : String) (kwargs : Kwargs) :
    String → Kwargs :=
  fun u => if u = uri then kwargs else metadata u

/-- v4 `DSL.meta` applied to the options map of one URI: merge `kwargs` key by
key, failing on a conflicting overwrite (same key, different value). -/
def metaV4 (m : Kwargs) : Kwargs → Except String Kwargs
  | [] => .ok m
  | (k, v) :: rest =>
    match lookupKw m k with
    | some v' =>
      if v' ≠ v then .error k else metaV4 (setKw m k v) rest
    | none => metaV4 (setKw m k v) rest

/-- `("keep" in meta) and meta["keep"]` in `_FileJob.rm_targets`. -/
def keepSet (metadata : String → Kwargs) (t : String) : Bool :=
  match lookupKw (metadata t) "keep" with
  | some v => v.truthy
  | none => false

/-- Observable events of the worker's exception handler, in program order. -/
inductive Ev
  | rmAttempt (t : String)
  | deferPut
  | die
  | doneSet
  | taskPut
  deriving DecidableEq, Repr

/-- `_FileJob.rm_targets` (vx): one deletion attempt per unique target not
marked `keep` (failures of the deletion itself are caught and logged). -/
def rm_targets_trace (metadata : String → Kwargs) (tsU : List String) : List Ev :=
  tsU.filterMap fun t => if keepSet metadata t then none else some (Ev.rmAttempt t)

/-- The worker's failure path (vx `_ThreadPool._worker`, `except` branch and
its continuation): `rm_targets()`, then the deferred-error enqueue
(`keep_going`) or the die-sequence, then `done.set()` and `task.put()` (which
is what re-enqueues dependents' tasks). -/
def worker_fail_trace (keep_going : Bool) (metadata : String → Kwargs)
    (tsU : List String) : List Ev :=
  rm_targets_trace metadata tsU
    ++ [if keep_going then Ev.deferPut else Ev.die]
    ++ [Ev.doneSet, Ev.taskPut]

theorem rm_targets_trace_shape (metadata : String → Kwargs) (tsU : List String) :
    ∀ e ∈ rm_targets_trace metadata tsU, ∃ t, e = Ev.rmAttempt t := by
  intro e he
  unfold rm_targets_trace at he
  obtain ⟨t, _, ht⟩ := List.mem_filterMap.mp he
  cases hk : keepSet metadata t with
  | true =>
    rw [hk] at ht
    simp at ht
  | false =>
    rw [hk] at ht
    simp only [Bool.false_eq_true, if_false, Option.some.injEq] at ht
    exact ⟨t, ht.symm⟩

/-- C6: on action failure the worker attempts to delete exactly the unique
targets not marked `keep`; every deletion attempt precedes the `done` event,
the task re-enqueue (which signals dependents), and the deferred-error
enqueue / die-sequence; the deferred-error enqueue happens iff `keep_going`,
the die-sequence iff not. -/
theorem worker_fail_order (keep_going : Bool) (metadata : String → Kwargs)
    (tsU : List String) :
    (∀ t ∈ tsU, keepSet metadata t = false →
      Ev.rmAttempt t ∈ worker_fail_trace keep_going metadata tsU) ∧
    (∀ t, keepSet metadata t = true →
      Ev.rmAttempt t ∉ worker_fail_trace keep_going metadata tsU) ∧
    (∀ (i j : Nat) (t : String) (e : Ev),
      (worker_fail_trace keep_going metadata tsU)[i]? = some (Ev.rmAttempt t) →
      (worker_fail_trace keep_going metadata tsU)[j]? = some e →
      (e = Ev.doneSet ∨ e = Ev.taskPut ∨ e = Ev.deferPut ∨ e = Ev.die) → i < j) ∧
    (Ev.deferPut ∈ worker_fail_trace keep_going metadata tsU ↔ keep_going = true) ∧
    (Ev.die ∈ worker_fail_trace keep_going metadata tsU ↔ keep_going = false) := by
  have htail : worker_fail_trace keep_going metadata tsU =
      rm_targets_trace metadata tsU
        ++ ([if keep_going then Ev.deferPut else Ev.die]
            ++ [Ev.doneSet, Ev.taskPut]) := by
    simp [worker_fail_trace]
  refine ⟨?_, ?_, ?_, ?_, ?_⟩
  · intro t ht hk
    rw [htail]
    refine List.mem_append_left _ ?_
    exact List.mem_filterMap.mpr ⟨t, ht, by simp [hk]⟩
  · intro t hk
    rw [htail]
    intro hmem
    rcases List.mem_append.mp hmem with h | h
    · obtain ⟨w, hw, hweq⟩ := List.mem_filterMap.mp h
      cases hkw : keepSet metadata w with
      | true =>
        rw [hkw] at hweq
        simp at hweq
      | false =>
        rw [hkw] at hweq
        simp only [Bool.false_eq_true, if_false, Option.some.injEq,
          Ev.rmAttempt.injEq] at hweq
        subst hweq
        rw [hk] at hkw
        simp at hkw
    · rcases keep_going with _ | _ <;> simp at h
  · intro i j t e hi hj he
    rw [htail] at hi hj
    have hiA : i < (rm_targets_trace metadata tsU).length := by
      by_contra hge
      push_neg at hge
      rw [List.getElem?_append_right hge] at hi
      have hmem := List.getElem?_mem hi
      rcases keep_going with _ | _ <;> simp at hmem
    have hjA : ¬ j < (rm_targets_trace metadata tsU).length := by
      intro hlt
      rw [List.getElem?_append_left hlt] at hj
      have hmem := List.getElem?_mem hj
      obtain ⟨u, hu⟩ := rm_targets_trace_shape metadata tsU e hmem
      subst hu
      rcases he with h | h | h | h <;> simp at h
    omega
  · rw [htail]
    cases keep_going with
    | true => simp
    | false =>
      simp only [Bool.false_eq_true, if_false, List.mem_append, Bool.false_eq]
      constructor
      · rintro (h | h | h)
        · obtain ⟨u, hu⟩ := rm_targets_trace_shape metadata tsU _ h
          simp at hu
        · simp at h
        · simp at h
      · intro h
        simp at h
  · rw [htail]
    cases keep_going with
    | false => simp
    | true =>
      simp only [if_true, List.mem_append, Bool.true_eq]
      constructor
      · rintro (h | h | h)
        · obtain ⟨u, hu⟩ := rm_targets_trace_shape metadata tsU _ h
          simp at hu
        · simp at h
        · simp at h
      · intro h
        simp at h

/-- Witness for `worker_fail_order`: a job with targets `a` (not kept) and
`b` (kept): `a` is attempted, `b` is not, and the attempt precedes `done`. -/
theorem worker_fail_order_witness :
    Ev.rmAttempt "a" ∈ worker_fail_trace true
        (fun u => if u = "b" then [("keep", PyVal.pyBool true)] else []) ["a", "b"] ∧
    Ev.rmAttempt "b" ∉ worker_fail_trace true
        (fun u => if u = "b" then [("keep", PyVal.pyBool true)] else []) ["a", "b"] := by
  have h := worker_fail_order true
    (fun u => if u = "b" then [("keep", PyVal.pyBool true)] else []) ["a", "b"]
  exact ⟨h.1 "a" (by simp) (by simp [keepSet, lookupKw]),
    h.2.1 "b" (by simp [keepSet, lookupKw, PyVal.truthy])⟩

/-! ## C10: metadata overwrite semantics (vx `DSL.meta` vs v4 `DSL.meta`) -/

theorem lookupKw_setKw_self (m : Kwargs) (k : String) (v : PyVal) :
    lookupKw (setKw m k v) k = some v := by
  induction m with
  | nil => simp [setKw, lookupKw]
  | cons p rest ih =>
    obtain ⟨k', v'⟩ := p
    by_cases h : k' = k
    · subst h
      simp [setKw, lookupKw]
    · simp [setKw, lookupKw, h, ih]

theorem lookupKw_setKw_ne (m : Kwargs) (k k' : String) (v : PyVal)
    (h : k' ≠ k) : lookupKw (setKw m k v) k' = lookupKw m k' := by
  have hne : ¬ k = k' := fun he => h he.symm
  induction m with
  | nil => simp [setKw, lookupKw, hne]
  | cons p rest ih =>
    obtain ⟨k₀, v₀⟩ := p
    by_cases h0 : k₀ = k
    · simp [setKw, lookupKw, h0, hne]
    · simp [setKw, lookupKw, h0, ih]

theorem metaV4_ok_preserves (kw : Kwargs) :
    ∀ (m m' : Kwargs), metaV4 m kw = .ok m' →
      ∀ k, k ∉ kw.map Prod.fst → lookupKw m' k = lookupKw m k := by
  induction kw with
  | nil =>
    intro m m' h k _
    simp only [metaV4, Except.ok.injEq] at h
    rw [h]
  | cons p rest ih =>
    obtain ⟨k₁, v₁⟩ := p
    intro m m' h k hk
    have hk1 : k ≠ k₁ := by
      intro he
      exact hk (by simp [he])
    have hkrest : k ∉ rest.map Prod.fst := fun hmem => hk (by simp [hmem])
    rcases hl : lookupKw m k₁ with _ | v'
    · simp only [metaV4, hl] at h
      rw [ih _ _ h k hkrest, lookupKw_setKw_ne _ _ _ _ hk1]
    · simp only [metaV4, hl] at h
      by_cases hv : v' = v₁
      · rw [if_neg (by simpa using hv)] at h
        rw [ih _ _ h k hkrest, lookupKw_setKw_ne _ _ _ _ hk1]
      · rw [if_pos (by simpa using hv)] at h
        cases h

/-- C10: in vx, a second `DSL.meta(uri, **kwargs)` call replaces the whole
stored options map for `uri` (last write wins), so a `keep=True` recorded
earlier is silently dropped and `rm_targets` then attempts to delete that
target on failure; other URIs are untouched.  In v4, `DSL.meta` merges per
key: a conflicting overwrite (same key, different value) raises, and keys not
mentioned in the new kwargs keep their old value. -/
theorem meta_overwrite_semantics (metadata : String → Kwargs) (uri : String)
    (kw1 kw2 : Kwargs) :
    (metaVx (metaVx metadata uri kw1) uri kw2 uri = kw2) ∧
    (∀ u, u ≠ uri → metaVx metadata uri kw2 u = metadata u) ∧
    (lookupKw kw2 "keep" = none →
      keepSet (metaVx (metaVx metadata uri kw1) uri kw2) uri = false ∧
      Ev.rmAttempt uri ∈
        rm_targets_trace (metaVx (metaVx metadata uri kw1) uri kw2) [uri]) ∧
    (∀ (m : Kwargs) (k : String) (v v' : PyVal) (rest : Kwargs),
      lookupKw m k = some v' → v' ≠ v → metaV4 m ((k, v) :: rest) = .error k) ∧
    (∀ (m m' kw : Kwargs), metaV4 m kw = .ok m' →
      ∀ k, k ∉ kw.map Prod.fst → lookupKw m' k = lookupKw m k) := by
  refine ⟨by simp [metaVx], ?_, ?_, ?_, ?_⟩
  · intro u hu
    simp [metaVx, hu]
  · intro hkeep
    have hks : keepSet (metaVx (metaVx metadata uri kw1) uri kw2) uri = false := by
      simp [keepSet, metaVx, hkeep]
    refine ⟨hks, ?_⟩
    exact List.mem_filterMap.mpr ⟨uri, by simp, by simp [hks]⟩
  · intro m k v v' rest hl hne
    simp only [metaV4, hl]
    rw [if_pos (by simpa using hne)]
  · intro m m' kw h k hk
    exact metaV4_ok_preserves kw m m' h k hk

/-- Witness for `meta_overwrite_semantics`: `meta(u, keep=True)` then
`meta(u, credential="c")` leaves `u` unkept in vx; in v4,
`meta` with `keep=False` against a stored `keep=True` errors. -/
theorem meta_overwrite_semantics_witness :
    keepSet (metaVx (metaVx (fun _ => []) "u" [("keep", PyVal.pyBool true)])
        "u" [("credential", PyVal.pyStr "c")]) "u" = false ∧
    metaV4 [("keep", PyVal.pyBool true)] [("keep", PyVal.pyBool false)]
        = .error "keep" := by
  have h := meta_overwrite_semantics (fun _ => []) "u"
    [("keep", PyVal.pyBool true)] [("credential", PyVal.pyStr "c")]
  refine ⟨(h.2.2.1 (by simp [lookupKw])).1, ?_⟩
  exact h.2.2.2.1 [("keep", PyVal.pyBool true)] "keep" (PyVal.pyBool false)
    (PyVal.pyBool true) [] (by simp [lookupKw]) (by simp)

/-! ## C7: unique binding of targets to jobs (`_set_unique`, v4 lines
1124-1128; in vx the `NonOverwritableDict` assignment in `_Job.__init__`,
lines 250-251, enforces the same rule)

Python (v4):
```
def _set_unique(d, k, v):
    if k in d:
        raise Err(f"...")
    d[k] = v
    return d
```
The job table is an association list `String × Nat` (target ↦ job id);
insertion appends, matching dict insertion order. -/

def set_unique (d : List (String × Nat)) (k : String) (v : Nat) :
    Except String (List (String × Nat)) :=
  if k ∈ d.map Prod.fst then .error k else .ok (d ++ [(k, v)])

theorem nodup_keys_unique_binding (d : List (String × Nat))
    (hnd : (d.map Prod.fst).Nodup) :
    ∀ (k : String) (v₁ v₂ : Nat), (k, v₁) ∈ d → (k, v₂) ∈ d → v₁ = v₂ := by
  induction d with
  | nil => intro k v₁ v₂ h; simp at h
  | cons p rest ih =>
    obtain ⟨k₀, v₀⟩ := p
    simp only [List.map_cons, List.nodup_cons] at hnd
    intro k v₁ v₂ h₁ h₂
    rcases List.mem_cons.mp h₁ with h₁ | h₁ <;>
      rcases List.mem_cons.mp h₂ with h₂ | h₂
    · rw [Prod.mk.injEq] at h₁ h₂
      omega
    · exfalso
      rw [Prod.mk.injEq] at h₁
      exact hnd.1 (h₁.1 ▸ List.mem_map_of_mem Prod.fst h₂)
    · exfalso
      rw [Prod.mk.injEq] at h₂
      exact hnd.1 (h₂.1 ▸ List.mem_map_of_mem Prod.fst h₁)
    · exact ih hnd.2 k v₁ v₂ h₁ h₂

/-- C7: `_set_unique` fails exactly when the target is already bound; a
successful insertion appends the new binding and preserves key uniqueness, so
after any sequence of successful declarations each target maps to exactly one
job. -/
theorem set_unique_spec :
    (∀ (d : List (String × Nat)) (k : String) (v : Nat),
      (∃ e, set_unique d k v = .error e) ↔ k ∈ d.map Prod.fst) ∧
    (∀ (d : List (String × Nat)) (k : String) (v : Nat) d',
      set_unique d k v = .ok d' →
        d' = d ++ [(k, v)] ∧
        ((d.map Prod.fst).Nodup → (d'.map Prod.fst).Nodup)) ∧
    (∀ d : List (String × Nat), (d.map Prod.fst).Nodup →
      ∀ (k : String) (v₁ v₂ : Nat), (k, v₁) ∈ d → (k, v₂) ∈ d → v₁ = v₂) := by
  refine ⟨?_, ?_, fun d hnd => nodup_keys_unique_binding d hnd⟩
  · intro d k v
    constructor
    · rintro ⟨e, he⟩
      by_contra hmem
      simp [set_unique, hmem] at he
    · intro hmem
      exact ⟨k, by simp [set_unique, hmem]⟩
  · intro d k v d' h
    by_cases hmem : k ∈ d.map Prod.fst
    · simp [set_unique, hmem] at h
    · simp only [set_unique, if_neg hmem, Except.ok.injEq] at h
      subst h
      refine ⟨rfl, fun hnd => ?_⟩
      rw [List.map_append]
      simp only [List.map_cons, List.map_nil]
      rw [List.nodup_append]
      exact ⟨hnd, List.nodup_singleton k, by
        intro a ha hb
        simp only [List.mem_singleton] at hb
        subst hb
        exact hmem ha⟩

/-- Witness for `set_unique_spec`: re-binding target `"a"` fails, binding a
fresh target succeeds. -/
theorem set_unique_spec_witness :
    (∃ e, set_unique [("a", 0)] "a" 1 = .error e) ∧
      set_unique [("a", 0)] "b" 1 = .ok [("a", 0), ("b", 1)] :=
  ⟨(set_unique_spec.1 [("a", 0)] "a" 1).mpr (by simp), by simp [set_unique]⟩

/-! ## C8: order-preserving dedup (`_unique`, v4 lines 1131-1138)

Python:
```
def _unique(xs):
    seen = set(); ret = []
    for x in xs:
        if x not in seen:
            ret.append(x); seen.add(x)
    return ret
```
In vx, `_Job.__init__` stores `ds_unique = set(self.ds)` — a hash set whose
iteration order the embedding leaves abstract; the ordered dedup proved here
is v4's `_unique`, the definition the claim cites for the ordering. -/

def uniqueAux (seen ret : List String) : List String → List String
  | [] => ret
  | x :: xs =>
    if x ∈ seen then uniqueAux seen ret xs
    else uniqueAux (x :: seen) (ret ++ [x]) xs

def unique (xs : List String) : List String := uniqueAux [] [] xs

/-- The specification's "deduplication that preserves the first occurrence":
keep each element's first occurrence, drop every later duplicate.  (Stated
from the spec's words, to be compared with `unique` from the source.) -/
def specFirstOccDedup : List String → List String
  | [] => []
  | x :: xs => x :: specFirstOccDedup (xs.filter fun y => y ≠ x)
  termination_by xs => xs.length
  decreasing_by
    simp only [List.length_cons]
    exact Nat.lt_succ_of_le (List.length_filter_le _ _)

theorem specFirstOccDedup_nil : specFirstOccDedup [] = [] := by
  rw [specFirstOccDedup.eq_def]

theorem specFirstOccDedup_cons (x : String) (xs : List String) :
    specFirstOccDedup (x :: xs)
      = x :: specFirstOccDedup (xs.filter fun y => y ≠ x) := by
  rw [specFirstOccDedup.eq_def]

theorem uniqueAux_append (xs : List String) :
    ∀ seen ret, uniqueAux seen ret xs = ret ++ uniqueAux seen [] xs := by
  induction xs with
  | nil => intro seen ret; simp [uniqueAux]
  | cons x xs ih =>
    intro seen ret
    by_cases h : x ∈ seen
    · simp only [uniqueAux, if_pos h]
      exact ih seen ret
    · simp only [uniqueAux, if_neg h]
      rw [ih _ (ret ++ [x]), ih _ ([] ++ [x]), List.nil_append,
        List.append_assoc]

theorem uniqueAux_mem_nodup (xs : List String) :
    ∀ seen, (∀ y, y ∈ uniqueAux seen [] xs ↔ y ∈ xs ∧ y ∉ seen) ∧
      (uniqueAux seen [] xs).Nodup := by
  induction xs with
  | nil => intro seen; simp [uniqueAux]
  | cons x xs ih =>
    intro seen
    by_cases h : x ∈ seen
    · simp only [uniqueAux, if_pos h]
      obtain ⟨hmem, hnd⟩ := ih seen
      refine ⟨?_, hnd⟩
      intro y
      rw [hmem y]
      constructor
      · rintro ⟨hy, hys⟩
        exact ⟨List.mem_cons_of_mem _ hy, hys⟩
      · rintro ⟨hy, hys⟩
        rcases List.mem_cons.mp hy with rfl | hy
        · exact absurd h hys
        · exact ⟨hy, hys⟩
    · simp only [uniqueAux, if_neg h]
      rw [uniqueAux_append]
      simp only [List.nil_append, List.singleton_append]
      obtain ⟨hmem, hnd⟩ := ih (x :: seen)
      constructor
      · intro y
        simp only [List.mem_cons, hmem y, List.mem_cons, not_or]
        constructor
        · rintro (rfl | ⟨hy, hne, hys⟩)
          · exact ⟨Or.inl rfl, h⟩
          · exact ⟨Or.inr hy, hys⟩
        · rintro ⟨rfl | hy, hys⟩
          · exact Or.inl rfl
          · by_cases hyx : y = x
            · exact Or.inl hyx
            · exact Or.inr ⟨hy, hyx, hys⟩
      · rw [List.nodup_cons]
        refine ⟨?_, hnd⟩
        intro hx
        exact ((hmem x).mp hx).2 (List.mem_cons_self x seen)

theorem uniqueAux_eq_spec (xs : List String) :
    ∀ seen, uniqueAux seen [] xs
      = specFirstOccDedup (xs.filter fun y => y ∉ seen) := by
  induction xs with
  | nil => intro seen; simp [uniqueAux, specFirstOccDedup_nil]
  | cons x xs ih =>
    intro seen
    by_cases h : x ∈ seen
    · simp only [uniqueAux, if_pos h]
      rw [ih seen, List.filter_cons]
      simp [h]
    · simp only [uniqueAux, if_neg h]
      rw [uniqueAux_append, ih (x :: seen), List.filter_cons]
      simp only [List.nil_append, List.singleton_append, h, not_false_iff,
        decide_eq_true_eq, if_pos]
      rw [specFirstOccDedup_cons]
      simp only [List.cons.injEq, true_and]
      congr 1
      rw [List.filter_filter]
      apply List.filter_congr
      intro y _
      by_cases hs : y ∈ seen
      · simp [hs]
      · by_cases hyx : y = x
        · simp [hs, hyx]
        · simp [hs, hyx]

/-- C8: v4's `_unique` is exactly the first-occurrence-preserving
deduplication of the dep sequence: it equals the dedup described by the spec,
it is duplicate-free, and it has the same elements as `deps`. -/
theorem unique_is_first_occurrence_dedup (xs : List String) :
    unique xs = specFirstOccDedup xs ∧ (unique xs).Nodup ∧
      ∀ x, x ∈ unique xs ↔ x ∈ xs := by
  obtain ⟨hmem, hnd⟩ := uniqueAux_mem_nodup xs []
  refine ⟨?_, hnd, ?_⟩
  · rw [unique, uniqueAux_eq_spec xs []]
    congr 1
    apply List.filter_eq_self.mpr
    intro a _
    simp
  · intro x
    rw [unique, hmem x]
    simp

/-- vx `_Job.__init__` line 246: `self.ds_unique = set(self.ds)` — a Python
hash set, i.e. an unordered collection holding exactly the distinct deps.
Python set equality is extensional, matching `Finset`. -/
def vx_ds_unique (ds : List String) : Finset String := ds.toFinset

/-- C8 counterexample (vx): `ds_unique` cannot be the first-occurrence-
preserving deduplication of `deps`.  The deps sequences `["a", "b"]` and
`["b", "a"]` produce the *same* stored `ds_unique` value, yet their
first-occurrence dedups are the two distinct lists `["a", "b"]` and
`["b", "a"]` — so no iteration of the vx `ds_unique` set can visit deps in
first-occurrence order for both jobs, refuting the claim for the vx
revision (only v4's `_unique` has the claimed property). -/
theorem vx_ds_unique_forgets_order :
    vx_ds_unique ["a", "b"] = vx_ds_unique ["b", "a"] ∧
    specFirstOccDedup ["a", "b"] = ["a", "b"] ∧
    specFirstOccDedup ["b", "a"] = ["b", "a"] ∧
    (["a", "b"] : List String) ≠ ["b", "a"] := by
  refine ⟨?_, ?_, ?_, by simp⟩
  · apply Finset.ext
    intro x
    simp only [vx_ds_unique, List.toFinset_cons, List.toFinset_nil,
      Finset.mem_insert, Finset.mem_singleton]
    tauto
  · rw [specFirstOccDedup_cons,
      show ((["b"] : List String).filter fun y => y ≠ "a") = ["b"] from rfl,
      specFirstOccDedup_cons,
      show (([] : List String).filter fun y => y ≠ "b") = [] from rfl,
      specFirstOccDedup_nil]
  · rw [specFirstOccDedup_cons,
      show ((["a"] : List String).filter fun y => y ≠ "b") = ["a"] from rfl,
      specFirstOccDedup_cons,
      show (([] : List String).filter fun y => y ≠ "a") = [] from rfl,
      specFirstOccDedup_nil]

/-! ## C3: cycle detection during graph construction (`_Job.invoke`, vx lines
304-334; `_make_graph`, v4 lines 1060-1106)

vx:
```
def invoke(self, call_chain=_nil):
    if self in call_chain:
        raise exception.Err(f"A circular dependency detected: {self} for {call_chain}")
    with self.lock:
        if self.task is None:
            cc = _Cons(self, call_chain)
            children = []
            for d in self.ds_unique:
                try: child = self.dsl.job_of_target[d]
                except KeyError:
                    ... synthesize a no-rule leaf job for d ...
                children.append(child.invoke(cc))
            ... create self.task ...
    return self
```
Jobs are indexed by `Fin n`; `jot` is `job_of_target` (`none`: no declared job —
vx synthesizes a dep-less leaf, which completes immediately), `jobs j` lists
job `j`'s `ds_unique` (a Python hash set; the embedding fixes an arbitrary
iteration order).  `chain` holds the jobs on the call chain, `done` the jobs
whose `task` is already set (invoke returns at once for those).  `invoke`
processes a worklist of targets; the error value is the job found on its own
call chain. -/

abbrev InvokeRes (n : Nat) := Except (Fin n) (Finset (Fin n))

/-- Dependency edge: job `a` has a dep string resolving to job `b`. -/
def GEdge {n : Nat} (jobs : Fin n → List String) (jot : String → Option (Fin n))
    (a b : Fin n) : Prop :=
  ∃ d ∈ jobs a, jot d = some b

/-- vx `_Job.invoke`, as a recursion over a worklist of targets.  On success
it returns the enlarged set of jobs whose task has been created. -/
def invoke {n : Nat} (jobs : Fin n → List String) (jot : String → Option (Fin n)) :
    Finset (Fin n) → Finset (Fin n) → List String → InvokeRes n
  | _, done, [] => .ok done
  | chain, done, t :: ts =>
    match jot t with
    | none => invoke jobs jot chain done ts
    | some j =>
      if hc : j ∈ chain then .error j
      else if j ∈ done then invoke jobs jot chain done ts
      else
        match invoke jobs jot (insert j chain) done (jobs j) with
        | .ok done' => invoke jobs jot chain (insert j done') ts
        | .error e => .error e
  termination_by chain _ ts => (n - chain.card, ts.length)
  decreasing_by
  · apply Prod.Lex.right
    simp
  · apply Prod.Lex.left
    have hne : chain ≠ Finset.univ := fun h => hc (h ▸ Finset.mem_univ j)
    have h1 : chain.card < n := by
      have := Finset.card_lt_iff_ne_univ chain |>.mpr hne
      simpa using this
    rw [Finset.card_insert_of_not_mem hc]
    omega
  · apply Prod.Lex.right
    simp

/-- Soundness of the error value: if every chain member transitively reaches
every worklist target's job, an error names a job on a dependency cycle.
(The chain check `self in call_chain` fires exactly for such a job.) -/
theorem invoke_error_on_cycle {n : Nat} (jobs : Fin n → List String)
    (jot : String → Option (Fin n)) :
    ∀ (chain done : Finset (Fin n)) (ts : List String),
      (∀ i ∈ chain, ∀ t ∈ ts, ∀ j, jot t = some j →
        Relation.TransGen (GEdge jobs jot) i j) →
      ∀ e, invoke jobs jot chain done ts = .error e →
        Relation.TransGen (GEdge jobs jot) e e := by
  intro chain done ts
  induction chain, done, ts using invoke.induct jobs jot with
  | case1 chain done =>
    intro _ e hres
    rw [invoke.eq_def] at hres
    cases hres
  | case2 chain done t ts hjot ih =>
    intro inv e hres
    rw [invoke.eq_def] at hres
    simp only [hjot] at hres
    exact ih (fun i hi u hu j hj => inv i hi u (List.mem_cons_of_mem _ hu) j hj)
      e hres
  | case3 chain done t ts j hjot hchain =>
    intro inv e hres
    rw [invoke.eq_def] at hres
    simp only [hjot, dif_pos hchain] at hres
    cases hres
    exact inv j hchain t (List.mem_cons_self _ _) j hjot
  | case4 chain done t ts j hjot hchain hdone ih =>
    intro inv e hres
    rw [invoke.eq_def] at hres
    simp only [hjot, dif_neg hchain, if_pos hdone] at hres
    exact ih (fun i hi u hu k hk => inv i hi u (List.mem_cons_of_mem _ hu) k hk)
      e hres
  | case5 chain done t ts j hjot hchain hdone done' hinner ih1 ih2 =>
    intro inv e hres
    rw [invoke.eq_def] at hres
    simp only [hjot, dif_neg hchain, if_neg hdone, hinner] at hres
    exact ih2 (fun i hi u hu k hk => inv i hi u (List.mem_cons_of_mem _ hu) k hk)
      e hres
  | case6 chain done t ts j hjot hchain hdone e₀ hinner ih =>
    intro inv e hres
    rw [invoke.eq_def] at hres
    simp only [hjot, dif_neg hchain, if_neg hdone, hinner] at hres
    cases hres
    refine ih ?_ e₀ hinner
    intro i hi u hu k hk
    rcases Finset.mem_insert.mp hi with rfl | hi
    · exact Relation.TransGen.single ⟨u, hu, hk⟩
    · exact (inv i hi t (List.mem_cons_self _ _) j hjot).tail ⟨u, hu, hk⟩

/-- `done` only ever contains jobs from which no dependency cycle is
reachable. -/
def DoneInv {n : Nat} (jobs : Fin n → List String) (jot : String → Option (Fin n))
    (done : Finset (Fin n)) : Prop :=
  ∀ x ∈ done, ∀ c, Relation.ReflTransGen (GEdge jobs jot) x c →
    ¬ Relation.TransGen (GEdge jobs jot) c c

theorem invoke_ok_spec {n : Nat} (jobs : Fin n → List String)
    (jot : String → Option (Fin n)) :
    ∀ (chain done : Finset (Fin n)) (ts : List String) (done₂ : Finset (Fin n)),
      invoke jobs jot chain done ts = .ok done₂ →
      done ⊆ done₂ ∧ (∀ t ∈ ts, ∀ j, jot t = some j → j ∈ done₂) ∧
        (DoneInv jobs jot done → DoneInv jobs jot done₂) := by
  intro chain done ts
  induction chain, done, ts using invoke.induct jobs jot with
  | case1 chain done =>
    intro done₂ hres
    rw [invoke.eq_def] at hres
    cases hres
    exact ⟨Finset.Subset.refl _, by simp, id⟩
  | case2 chain done t ts hjot ih =>
    intro done₂ hres
    rw [invoke.eq_def] at hres
    simp only [hjot] at hres
    obtain ⟨hsub, hmem, hinv⟩ := ih done₂ hres
    refine ⟨hsub, ?_, hinv⟩
    intro u hu j hj
    rcases List.mem_cons.mp hu with rfl | hu
    · rw [hjot] at hj
      cases hj
    · exact hmem u hu j hj
  | case3 chain done t ts j hjot hchain =>
    intro done₂ hres
    rw [invoke.eq_def] at hres
    simp only [hjot, dif_pos hchain] at hres
    cases hres
  | case4 chain done t ts j hjot hchain hdone ih =>
    intro done₂ hres
    rw [invoke.eq_def] at hres
    simp only [hjot, dif_neg hchain, if_pos hdone] at hres
    obtain ⟨hsub, hmem, hinv⟩ := ih done₂ hres
    refine ⟨hsub, ?_, hinv⟩
    intro u hu k hk
    rcases List.mem_cons.mp hu with rfl | hu
    · rw [hjot] at hk
      cases hk
      exact hsub hdone
    · exact hmem u hu k hk
  | case5 chain done t ts j hjot hchain hdone done' hinner ih1 ih2 =>
    intro done₂ hres
    rw [invoke.eq_def] at hres
    simp only [hjot, dif_neg hchain, if_neg hdone, hinner] at hres
    obtain ⟨hsub1, hmem1, hinv1⟩ := ih1 done' hinner
    obtain ⟨hsub2, hmem2, hinv2⟩ := ih2 done₂ hres
    have hjdone : j ∈ done₂ := hsub2 (Finset.mem_insert_self j done')
    refine ⟨?_, ?_, ?_⟩
    · exact fun x hx =>
        hsub2 (Finset.mem_insert_of_mem (hsub1 hx))
    · intro u hu k hk
      rcases List.mem_cons.mp hu with rfl | hu
      · rw [hjot] at hk
        cases hk
        exact hjdone
      · exact hmem2 u hu k hk
    · intro hD
      refine hinv2 ?_
      have hD' : DoneInv jobs jot done' := hinv1 hD
      intro x hx c hxc hcyc
      rcases Finset.mem_insert.mp hx with rfl | hx
      · rcases Relation.ReflTransGen.cases_head hxc with rfl | ⟨k, hk, hkc⟩
        · rcases (Relation.TransGen.head'_iff.mp hcyc) with ⟨k, hk, hkx⟩
          obtain ⟨d, hd, hjd⟩ := hk
          have hkdone : k ∈ done' := hmem1 d hd k hjd
          exact hD' k hkdone x hkx hcyc
        · obtain ⟨d, hd, hjd⟩ := hk
          have hkdone : k ∈ done' := hmem1 d hd k hjd
          exact hD' k hkdone c hkc hcyc
      · exact hD' x hx c hxc hcyc
  | case6 chain done t ts j hjot hchain hdone e₀ hinner ih =>
    intro done₂ hres
    rw [invoke.eq_def] at hres
    simp only [hjot, dif_neg hchain, if_neg hdone, hinner] at hres
    cases hres

/-- C3 (amended, vx): if any job reachable from the root lies on a dependency
cycle (including a job depending on its own target), `invoke` on the root
raises the circular-dependency error, and the job the error names is itself on
a cycle.  The error propagates out of `DSL.run` before the root is ever
enqueued, so the root's action does not run. -/
theorem invoke_detects_cycle {n : Nat} (jobs : Fin n → List String)
    (jot : String → Option (Fin n)) (root : String) (r c : Fin n)
    (hroot : jot root = some r)
    (hreach : Relation.ReflTransGen (GEdge jobs jot) r c)
    (hcyc : Relation.TransGen (GEdge jobs jot) c c) :
    ∃ i, invoke jobs jot ∅ ∅ [root] = .error i ∧
      Relation.TransGen (GEdge jobs jot) i i := by
  rcases hres : invoke jobs jot ∅ ∅ [root] with e | done₂
  · refine ⟨e, rfl, ?_⟩
    refine invoke_error_on_cycle jobs jot ∅ ∅ [root] ?_ e hres
    intro i hi
    exact absurd hi (Finset.not_mem_empty i)
  · exfalso
    obtain ⟨_, hmem, hinv⟩ := invoke_ok_spec jobs jot ∅ ∅ [root] done₂ hres
    have hr : r ∈ done₂ := hmem root (List.mem_singleton.mpr rfl) r hroot
    have hD : DoneInv jobs jot done₂ := by
      refine hinv ?_
      intro x hx
      exact absurd hx (Finset.not_mem_empty x)
    exact hD r hr c hreach hcyc

/-- Witness for `invoke_detects_cycle`: the one-job graph whose target `"x"`
is also its own dep (target equal to dep) is rejected with the cycle error. -/
theorem invoke_detects_cycle_witness :
    ∃ i, invoke (n := 1) (fun _ => ["x"]) (fun _ => some 0) ∅ ∅ ["x"]
        = .error i ∧
      Relation.TransGen (GEdge (n := 1) (fun _ => ["x"]) (fun _ => some 0)) i i :=
  invoke_detects_cycle (fun _ => ["x"]) (fun _ => some 0) "x" 0 0 rfl
    Relation.ReflTransGen.refl
    (Relation.TransGen.single ⟨"x", List.mem_singleton.mpr rfl, rfl⟩)

/-! ### v4 `_make_graph` (v4 lines 1060-1113)

```
def _make_graph(dependent_jobs, leaf_jobs, target, job_of_target, file,
                phonies, meta, call_chain):
    if target in call_chain:
        raise Err(f"A circular dependency detected: {target} ...")
    if target not in job_of_target:
        ptarget = DSL.uriparse(target)
        if (ptarget.scheme == "file") and (ptarget.netloc == "localhost"):
            if os.path.lexists(target):
                ... synthesize keep=True leaf job ...
            else:
                raise Err(f"No rule to make {target}")
        else:
            ... synthesize keep=True leaf job ...
    j = job_of_target[target]
    if j.visited:
        return
    j.visited = True
    current_call_chain = _Cons(target, call_chain)
    for dep in sorted(j.unique_ds, key=lambda dep: _key_to_sort_unique_ds(dep, job_of_target)):
        dependent_jobs.setdefault(dep, []).append(j)
        _make_graph(..., dep, ..., current_call_chain)
    j.unique_ds or leaf_jobs.append(j)
```
The chain holds target strings; `visited` holds job ids.  A synthesized leaf
job has no deps and is marked visited on creation, so the traversal simply
continues past it (a later lookup of the same target returns immediately).
Recursion is bounded by explicit fuel (the Python recursion terminates because
the job set is finite); `.fuelOut` marks exhaustion, an artifact of the
embedding that does not occur at the evaluated inputs. -/

inductive V4Err
  | cycleDetected (t : String)
  | noRule (t : String)
  | fuelOut
  deriving DecidableEq, Repr

/-- `_key_to_sort_unique_ds` (v4 lines 1109-1113) as a `≤` test:
`job_of_target[dep].priority`, or `math.inf` for an unknown dep. -/
def depKeyLe (jot : String → Option Nat) (prio : Nat → Int) (d1 d2 : String) :
    Bool :=
  match jot d1, jot d2 with
  | some j1, some j2 => decide (prio j1 ≤ prio j2)
  | some _, none => true
  | none, some _ => false
  | none, none => true

/-- Stable insertion used to model CPython's stable `sorted`. -/
def insertSorted (le : String → String → Bool) (x : String) :
    List String → List String
  | [] => [x]
  | y :: ys => if le x y then x :: y :: ys else y :: insertSorted le x ys

/-- CPython's `sorted(..., key=...)` (stable; modelled as a stable insertion
sort, which agrees with any stable sort). -/
def sortedBy (le : String → String → Bool) : List String → List String
  | [] => []
  | x :: xs => insertSorted le x (sortedBy le xs)

/-- v4 `_make_graph` over a worklist of targets (the deps loop).  Returns the
updated visited set on success. -/
def make_graph (jot : String → Option Nat) (ds : Nat → List String)
    (prio : Nat → Int) (localfile lexists : String → Bool) :
    Nat → List String → List Nat → List String → Except V4Err (List Nat)
  | _, _, visited, [] => .ok visited
  | 0, _, _, _ :: _ => .error .fuelOut
  | fuel + 1, chain, visited, t :: ts =>
    if t ∈ chain then .error (.cycleDetected t)
    else
      match jot t with
      | none =>
        if localfile t then
          if lexists t then
            make_graph jot ds prio localfile lexists fuel chain visited ts
          else .error (.noRule t)
        else make_graph jot ds prio localfile lexists fuel chain visited ts
      | some j =>
        if j ∈ visited then
          make_graph jot ds prio localfile lexists fuel chain visited ts
        else
          match make_graph jot ds prio localfile lexists fuel (t :: chain)
              (j :: visited) (sortedBy (depKeyLe jot prio) (ds j)) with
          | .ok visited' =>
            make_graph jot ds prio localfile lexists fuel chain visited' ts
          | .error e => .error e

/-- Dependency edge between job ids, via the job table. -/
def GEdgeNat (jot : String → Option Nat) (ds : Nat → List String) (a b : Nat) :
    Prop :=
  ∃ d ∈ ds a, jot d = some b

/-- C3 counterexample (v4): a graph whose root reaches both a missing-rule dep
and a cycle.  Root job 0 (`"all"`) depends on `"A"` (job 1, priority 0,
depending on the unknown, non-existing `"m"`) and `"X"` (job 2, priority 1,
depending on its own target `"X"`).  The cycle at job 2 is reachable from the
root, yet `_make_graph` fails with `No rule to make m` — not with a
cycle-detected error — because the deps are visited in priority order and the
missing rule is hit first.  This refutes the claim that every graph with a
reachable cycle fails with a cycle-detected error naming a target on the
cycle. -/
theorem make_graph_cycle_error_masked :
    Relation.ReflTransGen
        (GEdgeNat
          (fun s => if s = "all" then some 0 else if s = "A" then some 1
            else if s = "X" then some 2 else none)
          (fun j => if j = 0 then ["A", "X"] else if j = 1 then ["m"]
            else if j = 2 then ["X"] else []))
        0 2 ∧
      Relation.TransGen
        (GEdgeNat
          (fun s => if s = "all" then some 0 else if s = "A" then some 1
            else if s = "X" then some 2 else none)
          (fun j => if j = 0 then ["A", "X"] else if j = 1 then ["m"]
            else if j = 2 then ["X"] else []))
        2 2 ∧
      make_graph
        (fun s => if s = "all" then some 0 else if s = "A" then some 1
          else if s = "X" then some 2 else none)
        (fun j => if j = 0 then ["A", "X"] else if j = 1 then ["m"]
          else if j = 2 then ["X"] else [])
        (fun j => if j = 0 then 0 else if j = 1 then 0 else 1)
        (fun _ => true) (fun _ => false)
        10 [] [] ["all"]
        = .error (.noRule "m") := by
  refine ⟨?_, ?_, ?_⟩
  · exact Relation.ReflTransGen.single ⟨"X", by simp, by simp⟩
  · exact Relation.TransGen.single ⟨"X", by simp, by simp⟩
  · rfl

/-! ## C9: worker-pool priority queue order (`_Job.__lt__`, vx lines 266-267;
`_ThreadPool.__init__` uses `queue.PriorityQueue`, vx lines 467-469)

`queue.PriorityQueue.put/get` are CPython's `heapq.heappush`/`heappop` on a
list (Lib/heapq.py):
```
def heappush(heap, item):
    heap.append(item)
    _siftdown(heap, 0, len(heap)-1)

def heappop(heap):
    lastelt = heap.pop()
    if heap:
        returnitem = heap[0]
        heap[0] = lastelt
        _siftup(heap, 0)
        return returnitem
    return lastelt

def _siftdown(heap, startpos, pos):
    newitem = heap[pos]
    while pos > startpos:
        parentpos = (pos - 1) >> 1
        parent = heap[parentpos]
        if newitem < parent:
            heap[pos] = parent; pos = parentpos; continue
        break
    heap[pos] = newitem

def _siftup(heap, pos):
    endpos = len(heap); startpos = pos; newitem = heap[pos]
    childpos = 2*pos + 1
    while childpos < endpos:
        rightpos = childpos + 1
        if rightpos < endpos and not heap[childpos] < heap[rightpos]:
            childpos = rightpos
        heap[pos] = heap[childpos]; pos = childpos; childpos = 2*pos + 1
    heap[pos] = newitem
    _siftdown(heap, startpos, pos)
```
`_Job.__lt__` compares by `priority` alone, so a queued job is a pair
`(priority, declaration index)` and the heap comparison ignores the index. -/

abbrev QJob := Int × Nat

/-- `_Job.__lt__`: `self.priority < other.priority`. -/
def jobLt (a b : QJob) : Bool := decide (a.1 < b.1)

/-- CPython `heapq._siftdown` with `newitem` held aside (as in the source: it
is read once at entry and written at the final position). -/
def siftdownAux (startpos : Nat) : List QJob → Nat → QJob → List QJob
  | heap, pos, newitem =>
    if _h : startpos < pos then
      let parent := heap.getD ((pos - 1) / 2) default
      if jobLt newitem parent then
        siftdownAux startpos (heap.set pos parent) ((pos - 1) / 2) newitem
      else heap.set pos newitem
    else heap.set pos newitem
  termination_by _ pos _ => pos
  decreasing_by omega

/-- CPython `heapq.heappush`: append, then sift the new item up. -/
def heappush (heap : List QJob) (item : QJob) : List QJob :=
  siftdownAux 0 (heap ++ [item]) heap.length item

/-- CPython `heapq._siftup`: walk the hole down along min-children to a leaf,
then `_siftdown` from there. -/
def siftupAux (endpos startpos : Nat) : List QJob → Nat → QJob → List QJob
  | heap, pos, newitem =>
    if _h1 : 2 * pos + 1 < endpos then
      if _h2 : 2 * pos + 2 < endpos ∧
          ¬ jobLt (heap.getD (2 * pos + 1) default) (heap.getD (2 * pos + 2) default) then
        siftupAux endpos startpos
          (heap.set pos (heap.getD (2 * pos + 2) default)) (2 * pos + 2) newitem
      else
        siftupAux endpos startpos
          (heap.set pos (heap.getD (2 * pos + 1) default)) (2 * pos + 1) newitem
    else siftdownAux startpos (heap.set pos newitem) pos newitem
  termination_by _ pos _ => endpos - pos
  decreasing_by
  · omega
  · omega

/-- CPython `heapq.heappop` (`none` models the `IndexError` on an empty list,
which `queue.PriorityQueue` never triggers). -/
def heappop (heap : List QJob) : Option (QJob × List QJob) :=
  if heap.isEmpty then none
  else
    let lastelt := heap.getD (heap.length - 1) default
    let rest := heap.dropLast
    if rest.isEmpty then some (lastelt, rest)
    else some (rest.getD 0 default,
      siftupAux rest.length 0 (rest.set 0 lastelt) 0 lastelt)

/-- Priority stored at index `i`. -/
def prioAt (heap : List QJob) (i : Nat) : Int := (heap.getD i default).1

/-- The binary-heap invariant maintained by heapq: every child's priority is
at least its parent's. -/
def IsHeap (heap : List QJob) : Prop :=
  ∀ i, 0 < i → i < heap.length → prioAt heap ((i - 1) / 2) ≤ prioAt heap i

theorem prioAt_set_self (heap : List QJob) (i : Nat) (v : QJob)
    (h : i < heap.length) : prioAt (heap.set i v) i = v.1 := by
  simp [prioAt, List.getD_eq_getElem?_getD, List.getElem?_set_self h]

theorem prioAt_set_ne (heap : List QJob) (i j : Nat) (v : QJob) (h : i ≠ j) :
    prioAt (heap.set i v) j = prioAt heap j := by
  simp [prioAt, List.getD_eq_getElem?_getD, List.getElem?_set_ne h]

theorem isHeap_root_min (heap : List QJob) (hH : IsHeap heap) :
    ∀ i, i < heap.length → prioAt heap 0 ≤ prioAt heap i := by
  intro i
  induction i using Nat.strong_induction_on with
  | _ i ih =>
    intro hi
    rcases Nat.eq_zero_or_pos i with rfl | hpos
    · exact le_refl _
    · have hp : (i - 1) / 2 < i := by omega
      exact le_trans (ih _ hp (lt_trans hp hi)) (hH i hpos hi)

theorem jobLt_iff (a b : QJob) : jobLt a b = true ↔ a.1 < b.1 := by
  simp [jobLt]

/-- Heap restoration by `_siftdown(heap, 0, pos)`: if the array with `item`
written at `pos` satisfies the heap relation everywhere except possibly on the
edge into `pos`, and `item`'s would-be grandparent bounds `pos`'s children,
then the sift-down result is a heap. -/
theorem siftdownAux_zero_isHeap :
    ∀ (heap : List QJob) (pos : Nat) (item : QJob),
      pos < heap.length →
      (∀ i, 0 < i → i < heap.length → i ≠ pos →
        prioAt (heap.set pos item) ((i - 1) / 2) ≤ prioAt (heap.set pos item) i) →
      (∀ i, i < heap.length → (i - 1) / 2 = pos → i ≠ pos → 0 < pos →
        prioAt (heap.set pos item) ((pos - 1) / 2) ≤ prioAt (heap.set pos item) i) →
      IsHeap (siftdownAux 0 heap pos item) := by
  intro heap pos item
  induction heap, pos, item using siftdownAux.induct 0 with
  | case1 heap pos item hpos parent hlt ih =>
    intro hlen hβ hγ
    rw [siftdownAux.eq_def]
    simp only [dif_pos hpos, if_pos hlt]
    have hplt : (pos - 1) / 2 < pos := by omega
    have hPlen : (pos - 1) / 2 < heap.length := lt_trans hplt hlen
    set P := (pos - 1) / 2 with hP
    have hparent : parent = heap.getD P default := rfl
    have hitem : item.1 < parent.1 := by
      have := (jobLt_iff item parent).mp hlt
      exact this
    have hApos : prioAt (heap.set pos item) pos = item.1 :=
      prioAt_set_self heap pos item hlen
    have hAother : ∀ k, k ≠ pos →
        prioAt (heap.set pos item) k = prioAt heap k := fun k hk =>
      prioAt_set_ne heap pos k item (fun he => hk he.symm)
    have hAP : prioAt (heap.set pos item) P = parent.1 := by
      rw [hAother P (by omega)]
      rfl
    have hA'P : prioAt ((heap.set pos parent).set P item) P = item.1 :=
      prioAt_set_self _ P item (by rw [List.length_set]; omega)
    have hA'pos : prioAt ((heap.set pos parent).set P item) pos = parent.1 := by
      rw [prioAt_set_ne _ P pos item (by omega)]
      exact prioAt_set_self heap pos parent hlen
    have hA'other : ∀ k, k ≠ pos → k ≠ P →
        prioAt ((heap.set pos parent).set P item) k = prioAt heap k := by
      intro k h1 h2
      rw [prioAt_set_ne _ P k item (fun he => h2 he.symm),
        prioAt_set_ne _ pos k parent (fun he => h1 he.symm)]
    apply ih
    · rw [List.length_set]
      omega
    · -- heap relation away from the new hole P
      intro i h0 hi hne
      rw [List.length_set] at hi
      by_cases hip : i = pos
      · subst hip
        rw [hA'P, hA'pos]
        omega
      · by_cases hpari : (i - 1) / 2 = pos
        · have hiP : i ≠ P := by omega
          have := hγ i hi hpari hip (by omega)
          rw [hAP, hAother i hip] at this
          rw [hpari, hA'pos, hA'other i hip hiP]
          exact this
        · by_cases hparP : (i - 1) / 2 = P
          · have hiP : i ≠ P := hne
            have := hβ i h0 hi hip
            rw [hAother i hip, hparP, hAP] at this
            rw [hparP, hA'P, hA'other i hip hiP]
            omega
          · have hiP : i ≠ P := hne
            have := hβ i h0 hi hip
            rw [hAother i hip, hAother _ hpari] at this
            rw [hA'other i hip hiP, hA'other _ hpari hparP]
            exact this
    · -- children of the new hole P are bounded by its parent
      intro i hi hpari hne hposP
      rw [List.length_set] at hi
      have hgpP : (P - 1) / 2 ≠ P := by omega
      have hgppos : (P - 1) / 2 ≠ pos := by omega
      rw [hA'other _ hgppos hgpP]
      have hedgeP := hβ P hposP hPlen (by omega)
      rw [hAother P (by omega), hAother _ hgppos] at hedgeP
      by_cases hip : i = pos
      · subst hip
        rw [hA'pos]
        rw [show prioAt heap P = parent.1 from rfl] at hedgeP
        exact hedgeP
      · have hiP : i ≠ P := hne
        have h0i : 0 < i := by omega
        have := hβ i h0i hi hip
        rw [hAother i hip, hpari, hAP] at this
        rw [hA'other i hip hiP]
        rw [show prioAt heap P = parent.1 from rfl] at hedgeP
        omega
  | case2 heap pos item hpos parent hlt =>
    intro hlen hβ hγ
    rw [siftdownAux.eq_def]
    simp only [dif_pos hpos, if_neg hlt]
    intro i h0 hi
    rw [List.length_set] at hi
    by_cases hip : i = pos
    · subst hip
      have hparent : prioAt (heap.set i item) ((i - 1) / 2) = prioAt heap ((i - 1) / 2) :=
        prioAt_set_ne heap i ((i - 1) / 2) item (by omega)
      rw [hparent, prioAt_set_self heap i item hlen]
      have : ¬ item.1 < (heap.getD ((i - 1) / 2) default).1 := by
        intro hc
        exact hlt ((jobLt_iff _ _).mpr hc)
      have : (heap.getD ((i - 1) / 2) default).1 ≤ item.1 := by omega
      exact this
    · exact hβ i h0 hi hip
  | case3 heap pos item hpos =>
    intro hlen hβ hγ
    rw [siftdownAux.eq_def]
    simp only [dif_neg hpos]
    intro i h0 hi
    rw [List.length_set] at hi
    have hip : i ≠ pos := by omega
    exact hβ i h0 hi hip

theorem set_append_len (l : List QJob) (a b : QJob) :
    (l ++ [a]).set l.length b = l ++ [b] := by
  induction l with
  | nil => rfl
  | cons x xs ih =>
    show x :: ((xs ++ [a]).set xs.length b) = x :: (xs ++ [b])
    rw [ih]

theorem prioAt_append_lt (l : List QJob) (a : QJob) (k : Nat)
    (h : k < l.length) : prioAt (l ++ [a]) k = prioAt l k := by
  simp [prioAt, List.getD_eq_getElem?_getD, List.getElem?_append_left h]

/-- `heappush` keeps the array a heap. -/
theorem heappush_isHeap (heap : List QJob) (item : QJob) (hH : IsHeap heap) :
    IsHeap (heappush heap item) := by
  unfold heappush
  apply siftdownAux_zero_isHeap
  · simp
  · intro i h0 hi hne
    rw [List.length_append, List.length_singleton] at hi
    have hilen : i < heap.length := by omega
    have hplen : (i - 1) / 2 < heap.length := by omega
    rw [set_append_len, prioAt_append_lt _ _ _ hilen, prioAt_append_lt _ _ _ hplen]
    exact hH i h0 hilen
  · intro i hi hpar hne hpos
    rw [List.length_append, List.length_singleton] at hi
    omega

/-- Heap restoration by `_siftup(heap, 0)`: the hole at `pos` walks down a
min-child path; the array is a heap away from the hole and its children, and
the hole's children are bounded by the hole's parent. -/
theorem siftupAux_isHeap (endpos : Nat) :
    ∀ (heap : List QJob) (pos : Nat) (item : QJob),
      endpos = heap.length → pos < endpos →
      (∀ i, 0 < i → i < endpos → i ≠ pos → (i - 1) / 2 ≠ pos →
        prioAt heap ((i - 1) / 2) ≤ prioAt heap i) →
      (∀ i, i < endpos → (i - 1) / 2 = pos → i ≠ pos → 0 < pos →
        prioAt heap ((pos - 1) / 2) ≤ prioAt heap i) →
      IsHeap (siftupAux endpos 0 heap pos item) := by
  intro heap pos item
  induction heap, pos, item using siftupAux.induct endpos 0 with
  | case1 heap pos item h1 h2 ih =>
    intro hlen hpos hb hc
    rw [siftupAux.eq_def]
    simp only [dif_pos h1, dif_pos h2]
    have hposlen : pos < heap.length := hlen ▸ hpos
    have hvpos : ∀ v : QJob, prioAt (heap.set pos v) pos = v.1 :=
      fun v => prioAt_set_self heap pos v hposlen
    have hvother : ∀ (v : QJob) (k : Nat), k ≠ pos →
        prioAt (heap.set pos v) k = prioAt heap k :=
      fun v k hk => prioAt_set_ne heap pos k v (fun he => hk he.symm)
    apply ih
    · rw [List.length_set]
      exact hlen
    · omega
    · intro i h0 hi hne hpar
      by_cases hip : i = pos
      · subst hip
        rw [hvother _ _ (by omega), hvpos]
        exact hc (2 * i + 2) h2.1 (by omega) (by omega) h0
      · by_cases hpari : (i - 1) / 2 = pos
        · have hi12 : i = 2 * pos + 1 ∨ i = 2 * pos + 2 := by omega
          rcases hi12 with rfl | rfl
          · rw [hpari, hvpos, hvother _ _ hip]
            have hno := h2.2
            rw [jobLt_iff] at hno
            push_neg at hno
            show prioAt heap (2 * pos + 2) ≤ prioAt heap (2 * pos + 1)
            exact hno
          · exact absurd rfl hne
        · rw [hvother _ _ hip, hvother _ _ hpari]
          exact hb i h0 hi hip hpari
    · intro i hi hpar hne h0cp
      have hcp : (2 * pos + 2 - 1) / 2 = pos := by omega
      have hipos : i ≠ pos := by omega
      rw [hcp, hvpos, hvother _ _ hipos]
      have h0i : 0 < i := by omega
      have hstep := hb i h0i hi hipos (by omega)
      rw [hpar] at hstep
      show prioAt heap (2 * pos + 2) ≤ prioAt heap i
      exact hstep
  | case2 heap pos item h1 h2 ih =>
    intro hlen hpos hb hc
    rw [siftupAux.eq_def]
    simp only [dif_pos h1, dif_neg h2]
    have hposlen : pos < heap.length := hlen ▸ hpos
    have hvpos : ∀ v : QJob, prioAt (heap.set pos v) pos = v.1 :=
      fun v => prioAt_set_self heap pos v hposlen
    have hvother : ∀ (v : QJob) (k : Nat), k ≠ pos →
        prioAt (heap.set pos v) k = prioAt heap k :=
      fun v k hk => prioAt_set_ne heap pos k v (fun he => hk he.symm)
    apply ih
    · rw [List.length_set]
      exact hlen
    · omega
    · intro i h0 hi hne hpar
      by_cases hip : i = pos
      · subst hip
        rw [hvother _ _ (by omega), hvpos]
        exact hc (2 * i + 1) h1 (by omega) (by omega) h0
      · by_cases hpari : (i - 1) / 2 = pos
        · have hi12 : i = 2 * pos + 1 ∨ i = 2 * pos + 2 := by omega
          rcases hi12 with rfl | rfl
          · exact absurd rfl hne
          · rw [hpari, hvpos, hvother _ _ hip]
            have hlt : jobLt (heap.getD (2 * pos + 1) default)
                (heap.getD (2 * pos + 2) default) = true := by
              by_contra hno
              exact h2 ⟨hi, hno⟩
            have hlt' := (jobLt_iff _ _).mp hlt
            show prioAt heap (2 * pos + 1) ≤ prioAt heap (2 * pos + 2)
            exact le_of_lt hlt'
        · rw [hvother _ _ hip, hvother _ _ hpari]
          exact hb i h0 hi hip hpari
    · intro i hi hpar hne h0cp
      have hcp : (2 * pos + 1 - 1) / 2 = pos := by omega
      have hipos : i ≠ pos := by omega
      rw [hcp, hvpos, hvother _ _ hipos]
      have h0i : 0 < i := by omega
      have hstep := hb i h0i hi hipos (by omega)
      rw [hpar] at hstep
      show prioAt heap (2 * pos + 1) ≤ prioAt heap i
      exact hstep
  | case3 heap pos item h1 =>
    intro hlen hpos hb hc
    rw [siftupAux.eq_def]
    simp only [dif_neg h1]
    have hposlen : pos < heap.length := hlen ▸ hpos
    apply siftdownAux_zero_isHeap
    · rw [List.length_set]
      exact hposlen
    · intro i h0 hi hne
      rw [List.length_set] at hi
      rw [List.set_set]
      by_cases hpari : (i - 1) / 2 = pos
      · exfalso
        omega
      · rw [prioAt_set_ne heap pos i item (fun he => hne he.symm),
          prioAt_set_ne heap pos _ item (fun he => hpari he.symm)]
        have hbi := hb i h0 (by omega) hne hpari
        have hA : prioAt (heap.set pos item) i = prioAt heap i :=
          prioAt_set_ne heap pos i item (fun he => hne he.symm)
        have hA2 : prioAt (heap.set pos item) ((i - 1) / 2) = prioAt heap ((i - 1) / 2) :=
          prioAt_set_ne heap pos _ item (fun he => hpari he.symm)
        exact hbi
    · intro i hi hpar hne hpos0
      rw [List.length_set] at hi
      exfalso
      omega

theorem prioAt_dropLast (heap : List QJob) (k : Nat)
    (h : k < heap.length - 1) : prioAt heap.dropLast k = prioAt heap k := by
  unfold prioAt
  rw [List.getD_eq_getElem?_getD, List.getD_eq_getElem?_getD,
    List.getElem?_dropLast, if_pos h]

/-- `heappop` on a nonempty heap returns the root element and leaves a heap. -/
theorem heappop_spec (heap : List QJob) (hH : IsHeap heap) (hne : heap ≠ []) :
    ∃ rest, heappop heap = some (heap.getD 0 default, rest) ∧ IsHeap rest := by
  unfold heappop
  rw [if_neg (by simpa using hne)]
  by_cases h1 : heap.dropLast.isEmpty
  · rw [if_pos h1]
    have hlen1 : heap.length = 1 := by
      have h0 : heap.length ≠ 0 := fun h => hne (List.length_eq_zero.mp h)
      have := List.isEmpty_iff.mp h1
      have := congrArg List.length this
      rw [List.length_dropLast] at this
      simp at this
      omega
    refine ⟨heap.dropLast, ?_, ?_⟩
    · rw [hlen1]
    · intro i h0 hi
      rw [List.length_dropLast, hlen1] at hi
      omega
  · rw [if_neg h1]
    have hlen2 : 2 ≤ heap.length := by
      have h0 : heap.dropLast.length ≠ 0 := fun h => h1 (List.isEmpty_iff.mp
        (by simpa using List.length_eq_zero.mp h) ▸ rfl)
      rw [List.length_dropLast] at h0
      omega
    have hroot : heap.dropLast.getD 0 default = heap.getD 0 default := by
      rw [List.getD_eq_getElem?_getD, List.getD_eq_getElem?_getD,
        List.getElem?_dropLast, if_pos (show 0 < heap.length - 1 by omega)]
    refine ⟨_, by rw [hroot], ?_⟩
    apply siftupAux_isHeap
    · rw [List.length_set]
    · rw [List.length_dropLast]
      omega
    · intro i h0 hi hnei hpar
      rw [prioAt_set_ne _ _ _ _ (fun he => hnei he.symm),
        prioAt_set_ne _ _ _ _ (fun he => hpar he.symm)]
      rw [List.length_dropLast] at hi
      rw [prioAt_dropLast heap i hi, prioAt_dropLast heap _ (by omega)]
      exact hH i h0 (by omega)
    · intro i hi hpar hnei hpos0
      exact absurd hpos0 (lt_irrefl 0)

/-- C9 (amended): in the worker pool's `queue.PriorityQueue` (CPython heapq),
the root always holds a minimal `priority`, `get` (heappop) returns the root
and leaves a heap, and `put` (heappush) preserves the heap shape — so on every
queue reachable from the empty queue the job dequeued first has the lowest
priority integer among the queued jobs.  Equal-priority jobs, however, are
NOT dequeued in insertion order (heapq is unstable; see
`heapq_ties_not_insertion_order`). -/
theorem priority_queue_pop_min (heap : List QJob) (hH : IsHeap heap) :
    (∀ i, i < heap.length → prioAt heap 0 ≤ prioAt heap i) ∧
    (heap ≠ [] →
      ∃ rest, heappop heap = some (heap.getD 0 default, rest) ∧ IsHeap rest) ∧
    (∀ item, IsHeap (heappush heap item)) ∧
    IsHeap ([] : List QJob) :=
  ⟨isHeap_root_min heap hH, heappop_spec heap hH,
    fun item => heappush_isHeap heap item hH,
    fun i _ hi => absurd hi (by simp)⟩

/-- Witness for `priority_queue_pop_min` at the two-job heap
`[(0, 5), (1, 6)]`: the root's priority 0 bounds the other job's priority. -/
theorem priority_queue_pop_min_witness :
    prioAt [((0 : Int), 5), (1, 6)] 0 ≤ prioAt [((0 : Int), 5), (1, 6)] 1 := by
  have hH : IsHeap [((0 : Int), 5), (1, 6)] := by
    intro i h0 hi
    simp only [List.length_cons, List.length_nil] at hi
    have : i = 1 := by omega
    subst this
    decide
  exact (priority_queue_pop_min _ hH).1 1 (by simp)

/-- C9 counterexample: equal-priority jobs are not dequeued in insertion
order.  Four jobs of priority 0, with declaration indices 0, 1, 2, 3, are
pushed in order; the first `heappop` returns job 0, but the second returns
job 2 — although job 1 was inserted before job 2.  (CPython's heapq is not a
stable queue; buildpy pushes jobs bare, with `_Job.__lt__` comparing only
`priority`, so ties fall to the heap's arbitrary order.) -/
theorem heapq_ties_not_insertion_order :
    heappush (heappush (heappush (heappush ([] : List QJob) (0, 0)) (0, 1))
        (0, 2)) (0, 3)
      = [(0, 0), (0, 1), (0, 2), (0, 3)] ∧
    heappop [((0 : Int), 0), (0, 1), (0, 2), (0, 3)]
      = some ((0, 0), [(0, 2), (0, 1), (0, 3)]) ∧
    heappop [((0 : Int), 2), (0, 1), (0, 3)]
      = some ((0, 2), [(0, 1), (0, 3)]) := by
  have p1 : heappush ([] : List QJob) (0, 0) = [(0, 0)] := by
    unfold heappush
    rw [siftdownAux.eq_def]
    norm_num
  have p2 : heappush [((0 : Int), 0)] (0, 1) = [(0, 0), (0, 1)] := by
    unfold heappush
    rw [siftdownAux.eq_def]
    norm_num [jobLt]
  have p3 : heappush [((0 : Int), 0), (0, 1)] (0, 2) = [(0, 0), (0, 1), (0, 2)] := by
    unfold heappush
    rw [siftdownAux.eq_def]
    norm_num [jobLt]
  have p4 : heappush [((0 : Int), 0), (0, 1), (0, 2)] (0, 3)
      = [(0, 0), (0, 1), (0, 2), (0, 3)] := by
    unfold heappush
    rw [siftdownAux.eq_def]
    norm_num [jobLt]
  refine ⟨by rw [p1, p2, p3, p4], ?_, ?_⟩
  · unfold heappop
    norm_num
    rw [siftupAux.eq_def]
    norm_num [jobLt]
    rw [siftupAux.eq_def]
    norm_num
    rw [siftdownAux.eq_def]
    norm_num [jobLt]
  · unfold heappop
    norm_num
    rw [siftupAux.eq_def]
    norm_num [jobLt]
    rw [siftupAux.eq_def]
    norm_num
    rw [siftdownAux.eq_def]
    norm_num [jobLt]

end Buildpy
